import Mathlib

/-!
Shallow embedding of the `Coordinate` trait from `src/lib.rs` of the
`coordinate` crate.

A coordinate of dimension `d` over a scalar type `S` is modelled as a
function `Fin d → S` (the required primitive `val` reads the component at
an index; the primitive `gen` builds a coordinate from a per-index value
function).  Every derived operation below is a direct transcription of
the corresponding default method body of the Rust trait:

* `new_origin`, `new_from_value`, `component_wise`, `min_of_bounds`,
  `max_of_bounds`, `add`, `comp`, `sub`, `mult`, `map`, `fold`,
  `square_length`, `square_distance` keep their source names;
* `all_comp` transcribes the `while bln && i < DIM` loop literally
  (mutable locals become the arguments of a tail-recursive helper);
* `fold` transcribes the `for i in 0..DIM` accumulator loop the same way.

The scalar contract (`Numeric` from the external `bs_num` crate: zero,
`+`, `-`, `*`, ordering with `min`/`max`) is supplied by Lean type
classes at each use site, exactly as the Rust code takes it from trait
bounds.
-/

structure Coord (d : Nat) (S : Type) where
  val : Fin d → S

namespace Coord

variable {d : Nat} {S : Type}

/-- Trait method `gen(val_fn)`: creates a coordinate with values from each dimension. -/
def gen (val_fn : Fin d → S) : Coord d S :=
  ⟨val_fn⟩

/-- Trait method `new_from_value(v)`: coordinate with every component equal to `v`. -/
def new_from_value (v : S) : Coord d S :=
  gen (fun _ => v)

/-- Trait method `new_origin()`: coordinate with every component equal to scalar zero. -/
def new_origin [Zero S] : Coord d S :=
  new_from_value 0

/-- Trait method `component_wise(other, func)`: per-index combination of two coordinates. -/
def component_wise (a other : Coord d S) (func : S → S → S) : Coord d S :=
  gen (fun i => func (a.val i) (other.val i))

/-- Body of the `while bln && i < DIM` loop of `all_comp`: the mutable
locals `bln` and `i` are threaded as arguments. -/
def all_compAux (a other : Coord d S) (func : S → S → Bool) (bln : Bool) (i : Nat) : Bool :=
  if h : bln = true ∧ i < d then
    all_compAux a other func (func (a.val ⟨i, h.2⟩) (other.val ⟨i, h.2⟩)) (i + 1)
  else
    bln
termination_by d - i
decreasing_by omega

/-- Trait method `all_comp(other, func)`: checks whether all components satisfy
a predicate, starting from `bln = true`, `i = 0`. -/
def all_comp (a other : Coord d S) (func : S → S → Bool) : Bool :=
  all_compAux a other func true 0

/-- Instrumented copy of `all_compAux` that also records, in order, the
indices at which the predicate is evaluated. -/
def all_compTraceAux (a other : Coord d S) (func : S → S → Bool) (bln : Bool) (i : Nat) :
    Bool × List Nat :=
  if h : bln = true ∧ i < d then
    let r := all_compTraceAux a other func (func (a.val ⟨i, h.2⟩) (other.val ⟨i, h.2⟩)) (i + 1)
    (r.1, i :: r.2)
  else
    (bln, [])
termination_by d - i
decreasing_by omega

/-- Instrumented `all_comp`: the result together with the list of indices
at which the predicate was evaluated, in evaluation order. -/
def all_compTrace (a other : Coord d S) (func : S → S → Bool) : Bool × List Nat :=
  all_compTraceAux a other func true 0

/-- Trait method `min_of_bounds(other)`: component-wise minimum. -/
def min_of_bounds [LinearOrder S] (a other : Coord d S) : Coord d S :=
  a.component_wise other min

/-- Trait method `max_of_bounds(other)`: component-wise maximum. -/
def max_of_bounds [LinearOrder S] (a other : Coord d S) : Coord d S :=
  a.component_wise other max

/-- Trait method `add(other)`: component-wise addition. -/
def add [Add S] (a other : Coord d S) : Coord d S :=
  a.component_wise other (fun l r => l + r)

/-- Trait method `sub(other)`: component-wise subtraction. -/
def sub [Sub S] (a other : Coord d S) : Coord d S :=
  a.component_wise other (fun l r => l - r)

/-- Trait method `comp(other)`: components from self and other, defined as `self.sub(other)`. -/
def comp [Sub S] (a other : Coord d S) : Coord d S :=
  a.sub other

/-- Trait method `map(transform)`: applies the transform to every component. -/
def map (a : Coord d S) (transform : S → S) : Coord d S :=
  gen (fun i => transform (a.val i))

/-- Trait method `mult(k)`: every component multiplied (on the left) by scalar `k`. -/
def mult [Mul S] (a : Coord d S) (k : S) : Coord d S :=
  a.map (fun v => k * v)

/-- Body of the `for i in 0..DIM` loop of `fold`: the mutable local
`total` is threaded as an argument. -/
def foldAux (a : Coord d S) (func : S → S → S) (total : S) (i : Nat) : S :=
  if h : i < d then
    foldAux a func (func total (a.val ⟨i, h⟩)) (i + 1)
  else
    total
termination_by d - i
decreasing_by omega

/-- Trait method `fold(start_val, func)`: left-to-right reduction of the components. -/
def fold (a : Coord d S) (start_val : S) (func : S → S → S) : S :=
  foldAux a func start_val 0

/-- Trait method `square_length()`: sum of squares of all components. -/
def square_length [Zero S] [Add S] [Mul S] (a : Coord d S) : S :=
  a.fold 0 (fun acc v => acc + v * v)

/-- Trait method `square_distance(other)`: square length of `self.comp(other)`. -/
def square_distance [Zero S] [Add S] [Mul S] [Sub S] (a other : Coord d S) : S :=
  (a.comp other).square_length

end Coord

/-- Concrete 2-D rational point `(1, 1)` from the spec scenario. -/
def ptA : Coord 2 ℚ :=
  ⟨fun i => if i.val = 0 then 1 else 1⟩

/-- Concrete 2-D rational point `(4, 5)` from the spec scenario. -/
def ptB : Coord 2 ℚ :=
  ⟨fun i => if i.val = 0 then 4 else 5⟩

/-- Concrete 2-D rational point `(3, 4)` from the spec scenario. -/
def ptC : Coord 2 ℚ :=
  ⟨fun i => if i.val = 0 then 3 else 4⟩

/-- Concrete 3-D integer coordinate `(1, 2, 3)`, used to exhibit the
order sensitivity of `fold` with a non-commutative combining function. -/
def pt123 : Coord 3 ℤ :=
  ⟨fun i => (i.val : ℤ) + 1⟩

namespace Coord

variable {d : Nat} {S : Type}

theorem ext_val {a b : Coord d S} (h : ∀ i, a.val i = b.val i) : a = b := by
  cases a
  cases b
  simp only [mk.injEq]
  funext i
  exact h i

@[simp]
theorem val_gen (f : Fin d → S) (i : Fin d) : (gen f).val i = f i := rfl

@[simp]
theorem val_component_wise (a b : Coord d S) (f : S → S → S) (i : Fin d) :
    (a.component_wise b f).val i = f (a.val i) (b.val i) := rfl

end Coord

namespace Coord

theorem foldAux_eq_foldl (a : Coord d S) (f : S → S → S) (t : S) (i : Nat) :
    a.foldAux f t i = List.foldl f t ((List.ofFn a.val).drop i) := by
  induction t, i using foldAux.induct a f with
  | case1 t i h ih =>
      rw [foldAux, dif_pos h]
      have hlen : i < (List.ofFn a.val).length := by
        simpa [List.length_ofFn] using h
      rw [List.drop_eq_getElem_cons hlen, List.foldl_cons, List.getElem_ofFn]
      exact ih
  | case2 t i h =>
      rw [foldAux, dif_neg h, List.drop_eq_nil_of_le, List.foldl_nil]
      simpa [List.length_ofFn] using h

theorem fold_eq_foldl (a : Coord d S) (s : S) (f : S → S → S) :
    a.fold s f = List.foldl f s (List.ofFn a.val) := by
  simpa using foldAux_eq_foldl a f s 0

theorem foldl_square_zero [NonUnitalNonAssocRing S] :
    ∀ l : List S, (∀ x ∈ l, x = 0) → List.foldl (fun acc v => acc + v * v) 0 l = 0 := by
  intro l
  induction l with
  | nil => intro _; rfl
  | cons x t ih =>
      intro hall
      have hx : x = 0 := hall x (List.mem_cons_self x t)
      have : (0 : S) + x * x = 0 := by
        rw [hx, mul_zero, add_zero]
      rw [List.foldl_cons, this]
      exact ih (fun y hy => hall y (List.mem_cons_of_mem x hy))

end Coord

/-- C1: for coordinates `a`, `b` and every valid index `i`, the `i`-th
component of `a.min_of_bounds(b)` is `min (a.val i) (b.val i)`, the `i`-th
component of `a.max_of_bounds(b)` is `max (a.val i) (b.val i)`, and
`min_of_bounds` is commutative. -/
theorem Coord.claim_min_max_of_bounds {d : Nat} {S : Type} [LinearOrder S]
    (a b : Coord d S) (i : Fin d) :
    (a.min_of_bounds b).val i = min (a.val i) (b.val i)
    ∧ (a.max_of_bounds b).val i = max (a.val i) (b.val i)
    ∧ a.min_of_bounds b = b.min_of_bounds a := by
  refine ⟨rfl, rfl, ?_⟩
  apply Coord.ext_val
  intro j
  simpa [min_of_bounds] using min_comm (a.val j) (b.val j)

/-- C4: `fold` reduces the components strictly left-to-right, from index 0
to `DIM - 1`: it equals `List.foldl` over the component list, which for a
3-dimensional coordinate is the nested application
`f (f (f s v0) v1) v2`; with the non-commutative integer subtraction it
yields `((0 - 1) - 2) - 3 = -6` on the coordinate `(1, 2, 3)`. -/
theorem Coord.claim_fold_left_to_right :
    (∀ (d : Nat) (S : Type) (a : Coord d S) (s : S) (f : S → S → S),
        a.fold s f = List.foldl f s (List.ofFn a.val))
    ∧ (∀ (S : Type) (a : Coord 3 S) (s : S) (f : S → S → S),
        a.fold s f = f (f (f s (a.val 0)) (a.val 1)) (a.val 2))
    ∧ pt123.fold 0 (fun acc v => acc - v) = ((0 - 1) - 2) - 3 := by
  refine ⟨fun d S a s f => Coord.fold_eq_foldl a s f, ?_, ?_⟩
  · intro S a s f
    rw [Coord.fold_eq_foldl]
    rfl
  · rw [Coord.fold_eq_foldl]
    rfl

/-- C5: adding a coordinate and then subtracting it returns the original
coordinate: `a.add(b).sub(b) = a` (over a scalar additive group, the exact
idealisation of "within the precision of the scalar type"). -/
theorem Coord.claim_add_sub_cancel {d : Nat} {S : Type} [AddGroup S]
    (a b : Coord d S) :
    (a.add b).sub b = a := by
  apply Coord.ext_val
  intro i
  simp [Coord.add, Coord.sub, add_sub_cancel_right]

/-- C6: scaling by the scalar one is the identity, and scaling by the
scalar zero yields the origin coordinate: `a.mult 1 = a` and
`a.mult 0 = new_origin`. -/
theorem Coord.claim_mult_one_zero {d : Nat} {S : Type} [MulZeroOneClass S]
    (a : Coord d S) :
    a.mult 1 = a ∧ a.mult 0 = Coord.new_origin := by
  constructor
  · apply Coord.ext_val
    intro i
    simp [Coord.mult, Coord.map]
  · apply Coord.ext_val
    intro i
    simp [Coord.mult, Coord.map, Coord.new_origin, Coord.new_from_value]

/-- C7: the squared distance from a coordinate to itself is the scalar
zero: `a.square_distance a = 0`. -/
theorem Coord.claim_square_distance_self {d : Nat} {S : Type}
    [NonUnitalNonAssocRing S] (a : Coord d S) :
    a.square_distance a = 0 := by
  rw [Coord.square_distance, Coord.square_length, Coord.fold_eq_foldl]
  apply Coord.foldl_square_zero
  intro x hx
  rcases (List.mem_ofFn _ _).mp hx with ⟨i, hi⟩
  rw [← hi]
  simp [Coord.comp, Coord.sub]

/-- C8: `comp` (the spec's `diff`) is a pure alias for `sub`: for all
coordinates `a.comp b = a.sub b`, and its components are those of `self`
minus `other`. -/
theorem Coord.claim_comp_is_sub :
    (∀ (d : Nat) (S : Type) (_ : Sub S) (a b : Coord d S), a.comp b = a.sub b)
    ∧ (∀ (d : Nat) (S : Type) (_ : Sub S) (a b : Coord d S) (i : Fin d),
        (a.comp b).val i = a.val i - b.val i) :=
  ⟨fun _ _ _ _ _ => rfl, fun _ _ _ _ _ _ => rfl⟩

/-- C9: per-axis extrema are consistent: at every index the component of
`min_of_bounds` is at most that of `max_of_bounds`, and each of the two
equals one of the two input components. -/
theorem Coord.claim_bounds_consistent {d : Nat} {S : Type} [LinearOrder S]
    (a b : Coord d S) (i : Fin d) :
    (a.min_of_bounds b).val i ≤ (a.max_of_bounds b).val i
    ∧ ((a.min_of_bounds b).val i = a.val i ∨ (a.min_of_bounds b).val i = b.val i)
    ∧ ((a.max_of_bounds b).val i = a.val i ∨ (a.max_of_bounds b).val i = b.val i) := by
  exact ⟨min_le_max, min_choice (a.val i) (b.val i), max_choice (a.val i) (b.val i)⟩

/-- C10: addition of coordinates is commutative whenever the scalar
addition is commutative: `a.add b = b.add a`. -/
theorem Coord.claim_add_comm {d : Nat} {S : Type} [AddCommMagma S]
    (a b : Coord d S) :
    a.add b = b.add a := by
  apply Coord.ext_val
  intro i
  simpa [Coord.add] using add_comm (a.val i) (b.val i)

/-- C3: `square_length` is the fold from scalar zero with
`acc + v * v` (no square root), `square_distance` is the `square_length`
of `comp` (the spec's `diff`), and on the spec's concrete 2-D rational
points `(1,1)` and `(4,5)` the squared distance is `25`, equal to the
squared length of the point `(3,4)`. -/
theorem Coord.claim_square_length_distance :
    (∀ (d : Nat) (S : Type) (_ : Zero S) (_ : Add S) (_ : Mul S) (a : Coord d S),
        a.square_length = a.fold 0 (fun acc v => acc + v * v))
    ∧ (∀ (d : Nat) (S : Type) (_ : Zero S) (_ : Add S) (_ : Mul S) (_ : Sub S)
        (a b : Coord d S),
        a.square_distance b = (a.comp b).square_length)
    ∧ ptA.square_distance ptB = 25
    ∧ ptC.square_length = 25 := by
  refine ⟨fun _ _ _ _ _ _ => rfl, fun _ _ _ _ _ _ _ _ => rfl, ?_, ?_⟩
  · rw [Coord.square_distance, Coord.square_length, Coord.fold_eq_foldl]
    norm_num [List.ofFn_succ, Coord.comp, Coord.sub, Coord.component_wise,
      Coord.gen, ptA, ptB]
  · rw [Coord.square_length, Coord.fold_eq_foldl]
    norm_num [List.ofFn_succ, ptC]

namespace Coord

theorem all_compAux_eq_true_iff (a b : Coord d S) (f : S → S → Bool)
    (bln : Bool) (i : Nat) :
    all_compAux a b f bln i = true ↔
      (bln = true ∧ ∀ j : Fin d, i ≤ j.val → f (a.val j) (b.val j) = true) := by
  induction bln, i using all_compAux.induct a b f with
  | case1 bln i h ih =>
      rw [all_compAux, dif_pos h, ih]
      constructor
      · rintro ⟨hf, hall⟩
        refine ⟨h.1, fun j hj => ?_⟩
        rcases Nat.eq_or_lt_of_le hj with heq | hlt
        · have hji : j = ⟨i, h.2⟩ := Fin.ext heq.symm
          rw [hji]
          exact hf
        · exact hall j hlt
      · rintro ⟨_, hall⟩
        exact ⟨hall ⟨i, h.2⟩ (Nat.le_refl i), fun j hj => hall j (Nat.le_of_succ_le hj)⟩
  | case2 bln i h =>
      rw [all_compAux, dif_neg h]
      constructor
      · intro hb
        refine ⟨hb, fun j hj => ?_⟩
        have hd : ¬ i < d := fun hi => h ⟨hb, hi⟩
        exact absurd (Nat.lt_of_le_of_lt hj j.isLt) hd
      · exact And.left

theorem all_comp_eq_true_iff (a b : Coord d S) (f : S → S → Bool) :
    a.all_comp b f = true ↔ ∀ j : Fin d, f (a.val j) (b.val j) = true := by
  rw [all_comp, all_compAux_eq_true_iff]
  simp

theorem all_compTraceAux_fst (a b : Coord d S) (f : S → S → Bool)
    (bln : Bool) (i : Nat) :
    (all_compTraceAux a b f bln i).1 = all_compAux a b f bln i := by
  induction bln, i using all_compTraceAux.induct a b f with
  | case1 bln i h ih =>
      rw [all_compTraceAux, all_compAux, dif_pos h, dif_pos h]
      exact ih
  | case2 bln i h =>
      rw [all_compTraceAux, all_compAux, dif_neg h, dif_neg h]

theorem all_compTraceAux_snd_range (a b : Coord d S) (f : S → S → Bool)
    (bln : Bool) (i : Nat) :
    (all_compTraceAux a b f bln i).2 =
      List.range' i (all_compTraceAux a b f bln i).2.length := by
  induction bln, i using all_compTraceAux.induct a b f with
  | case1 bln i h ih =>
      rw [all_compTraceAux, dif_pos h]
      show i :: _ = List.range' i (i :: _).length
      rw [List.length_cons, List.range'_succ]
      exact congrArg (i :: ·) ih
  | case2 bln i h =>
      rw [all_compTraceAux, dif_neg h]
      rfl

theorem all_compTraceAux_shortcircuit (a b : Coord d S) (f : S → S → Bool)
    (bln : Bool) (i : Nat) :
    ∀ j ∈ (all_compTraceAux a b f bln i).2, ∀ k : Nat, i ≤ k → k < j →
      ∃ hk : k < d, f (a.val ⟨k, hk⟩) (b.val ⟨k, hk⟩) = true := by
  induction bln, i using all_compTraceAux.induct a b f with
  | case1 bln i h ih =>
      intro j hj k hik hkj
      rw [all_compTraceAux, dif_pos h] at hj
      rcases List.mem_cons.mp hj with rfl | hmem
      · omega
      · rcases Nat.eq_or_lt_of_le hik with heq | hlt
        · subst heq
        -- the predicate at index `i` must have returned true, else the
        -- recursive trace would be empty and `hmem` impossible
          cases hcond : f (a.val ⟨i, h.2⟩) (b.val ⟨i, h.2⟩) with
          | false =>
              rw [hcond, all_compTraceAux] at hmem
              rw [dif_neg (by simp)] at hmem
              exact absurd hmem (List.not_mem_nil j)
          | true => exact ⟨h.2, hcond⟩
        · exact ih j hmem k hlt hkj
  | case2 bln i h =>
      intro j hj
      rw [all_compTraceAux, dif_neg h] at hj
      exact absurd hj (List.not_mem_nil j)

end Coord

/-- C2: `all_comp` (the spec's `all_satisfy`) evaluates the predicate at
indices `0, 1, 2, …` in strictly increasing order (the instrumented trace
of evaluated indices is an initial segment `List.range` of the naturals),
never evaluates an index unless the predicate held at every smaller index
(so it stops at the first failure), returns true iff the predicate holds
at all `DIM` index pairs, and is vacuously true when `DIM = 0`. -/
theorem Coord.claim_all_comp_shortcircuit {d : Nat} {S : Type}
    (a b : Coord d S) (f : S → S → Bool) :
    (a.all_compTrace b f).1 = a.all_comp b f
    ∧ (a.all_compTrace b f).2 = List.range (a.all_compTrace b f).2.length
    ∧ (∀ j ∈ (a.all_compTrace b f).2, ∀ k : Nat, k < j →
        ∃ hk : k < d, f (a.val ⟨k, hk⟩) (b.val ⟨k, hk⟩) = true)
    ∧ (a.all_comp b f = true ↔ ∀ i : Fin d, f (a.val i) (b.val i) = true)
    ∧ (d = 0 → a.all_comp b f = true) := by
  refine ⟨Coord.all_compTraceAux_fst a b f true 0, ?_, ?_, Coord.all_comp_eq_true_iff a b f, ?_⟩
  · rw [List.range_eq_range']
    exact Coord.all_compTraceAux_snd_range a b f true 0
  · intro j hj k hkj
    exact Coord.all_compTraceAux_shortcircuit a b f true 0 j hj k (Nat.zero_le k) hkj
  · intro hd
    rw [Coord.all_comp_eq_true_iff]
    intro j
    exact absurd j.isLt (by omega)
